import Mathlib

/-!
Verification development for the FileGossip RAG backend (src/index.js).

The backend is a small Express application with three endpoints:
a document-ingestion endpoint (POST /api/docs) that chunks text,
embeds each chunk and appends the resulting records to a JSON
vector store; a chat endpoint (POST /api/chat) that embeds a
question, ranks every stored record by cosine similarity, keeps the
first `topK` of the ranking and forwards them to an LLM; and a
deletion endpoint (DELETE /api/docs/:source) that removes every
record of a given source.

Modelling conventions:
* JavaScript strings are modelled as lists of characters (`JStr`);
  `String.prototype.trim`, `split('\n')` and string length are
  modelled character by character.
* IEEE-754 doubles are modelled as exact rationals.  `Math.sqrt` is
  an opaque float primitive with no exact rational counterpart; it
  is passed as an abstract parameter `sqrtF`, which is sound here
  because no verified property depends on the numeric value of a
  square root.
* The external collaborators (the embedding model and the LLM) are
  passed as function parameters returning `Except`, mirroring the
  fact that in the source they are awaited calls that may throw and
  be caught by the surrounding try/catch.
* `Array.prototype.sort` with comparator `(a, b) => b.score - a.score`
  is required by the ECMAScript standard to be a stable sort agreeing
  with the comparator; it is modelled by a stable insertion sort.
* `Array.prototype.slice(0, end)` clamps `end` to the array length
  and interprets a negative `end` as `length + end`; `sliceEnd`
  reproduces this.
-/

/-- JavaScript strings, modelled as lists of characters. -/
abbrev JStr := List Char

/-- The whitespace test used by `String.prototype.trim`
(space, tab, newline, carriage return, vertical tab, form feed). -/
def isWs (c : Char) : Bool :=
  c == ' ' || c == '\t' || c == '\n' || c == '\r' || c == '\x0B' || c == '\x0C'

/-- Remove leading whitespace (the first half of JS `trim`). -/
def trimLeft (s : JStr) : JStr := s.dropWhile isWs

/-- JS `String.prototype.trim`: remove leading and trailing whitespace. -/
def trim (s : JStr) : JStr := (trimLeft (trimLeft s).reverse).reverse

/-- JS `text.split('\n')`: split on newline characters.  The empty
string splits to `[""]`, and a trailing newline produces a trailing
empty component, exactly as in JavaScript. -/
def splitNl : JStr → List JStr
  | [] => [[]]
  | c :: rest =>
    if c = '\n' then [] :: splitNl rest
    else
      match splitNl rest with
      | [] => [[c]]
      | l :: ls => (c :: l) :: ls

/-- Concatenate chunks, reinserting a line break between consecutive
chunks (used to state the chunk-concatenation properties). -/
def joinNl : List JStr → JStr
  | [] => []
  | [c] => c
  | c :: cs => c ++ '\n' :: joinNl cs

/-- Append a character to the last component of a non-empty list of
lines (helper for describing how `splitNl` acts on a string extended
by one non-newline character). -/
def appendLast (c : Char) : List JStr → List JStr
  | [] => [[c]]
  | [l] => [l ++ [c]]
  | l :: ls => l :: appendLast c ls

/-- A string made only of whitespace characters (this includes the
empty string). -/
def allWs (s : JStr) : Prop := ∀ c ∈ s, isWs c = true

instance (s : JStr) : Decidable (allWs s) := by
  unfold allWs; infer_instance

/-- The trimmed non-blank lines of a string, in order.  This is the
line-level content that chunking preserves. -/
def nbLines (s : JStr) : List JStr :=
  ((splitNl s).map trim).filter (fun l => !l.isEmpty)

/-- The loop of `chunkText` (src/index.js:63-77): accumulate lines
into `current`; when appending the next line (plus the separating
line break) would exceed `maxChars`, flush the trimmed buffer if
non-blank and restart the buffer from that line; at the end flush
the remaining buffer if non-blank. -/
def chunkLoop (maxChars : ℤ) : List JStr → JStr → List JStr
  | [], current => if trim current = [] then [] else [trim current]
  | line :: rest, current =>
    if (current.length : ℤ) + 1 + (line.length : ℤ) > maxChars then
      (if trim current = [] then [] else [trim current]) ++ chunkLoop maxChars rest line
    else
      chunkLoop maxChars rest (current ++ '\n' :: line)

/-- Function `chunkText` (src/index.js:63-77): split the input on line breaks
and greedily pack lines into chunks of at most `maxChars` characters
(a single oversized line is kept whole). -/
def chunkText (text : JStr) (maxChars : ℤ) : List JStr :=
  chunkLoop maxChars (splitNl text) []

/-- Function `cosineSim` (src/index.js:50-60): the loop accumulates the dot
product and the two squared norms over the indices of `a`, then
returns `dot / (sqrt(na) * sqrt(nb) + 1e-8)`.  `sqrtF` is the opaque
`Math.sqrt` primitive. -/
def cosineSim (sqrtF : ℚ → ℚ) (a b : List ℚ) : ℚ :=
  let dot := (List.range a.length).foldl (fun s i => s + a.getD i 0 * b.getD i 0) 0
  let na := (List.range a.length).foldl (fun s i => s + a.getD i 0 * a.getD i 0) 0
  let nb := (List.range a.length).foldl (fun s i => s + b.getD i 0 * b.getD i 0) 0
  dot / (sqrtF na * sqrtF nb + 1 / 100000000)

/-- A stored chunk record (the objects pushed in src/index.js:96-101). -/
structure Rec where
  id : String
  text : JStr
  source : JStr
  embedding : List ℚ
deriving DecidableEq

/-- A record paired with its similarity score
(the `{...item, score}` objects of src/index.js:136-139). -/
structure Scored where
  record : Rec
  score : ℚ
deriving DecidableEq

/-- The per-chunk view returned by the chat endpoint
(src/index.js:177-182): the record without its embedding, plus the
score. -/
structure ChunkOut where
  id : String
  text : JStr
  source : JStr
  score : ℚ
deriving DecidableEq

/-- Projection from a scored record to the response view. -/
def toChunkOut (s : Scored) : ChunkOut :=
  ⟨s.record.id, s.record.text, s.record.source, s.score⟩

/-- Stable descending insertion: `x` is placed before the first
element of strictly smaller key, hence after every earlier element
of equal key. -/
def insertDesc (key : α → ℚ) (x : α) : List α → List α
  | [] => [x]
  | y :: ys => if key y < key x then x :: y :: ys else y :: insertDesc key x ys

/-- Model of `Array.prototype.sort((a, b) => b.score - a.score)`:
the unique stable sort that is descending in `key`. -/
def sortJs (key : α → ℚ) (l : List α) : List α :=
  l.foldl (fun acc x => insertDesc key x acc) []

/-- The number of elements kept by `arr.slice(0, k)` on an array of
length `len`: a negative `k` counts from the end (`len + k`,
clamped at 0), a nonnegative `k` is clamped at `len` by `take`. -/
def sliceEnd (len : ℕ) (k : ℤ) : ℕ :=
  if k < 0 then ((len : ℤ) + k).toNat else k.toNat

/-- JS `arr.slice(0, k)`. -/
def jsSlice0 (l : List α) (k : ℤ) : List α := l.take (sliceEnd l.length k)

/-- The similarity search of the chat flow (src/index.js:135-141):
score every record against the query embedding, sort descending by
score (stable), and keep `slice(0, topK)`. -/
def search (sqrtF : ℚ → ℚ) (q : List ℚ) (db : List Rec) (topK : ℤ) : List Scored :=
  jsSlice0 (sortJs Scored.score (db.map fun item => ⟨item, cosineSim sqrtF q item.embedding⟩)) topK

/-- The same search with every scored record tagged by its position
in the store, used to state the stable tie-breaking property (the
sort key ignores the tag, so `search` is the tag-erasure of
`searchIdx`). -/
def searchIdx (sqrtF : ℚ → ℚ) (q : List ℚ) (db : List Rec) (topK : ℤ) :
    List (ℕ × Scored) :=
  jsSlice0 (sortJs (fun p => p.2.score)
    ((db.map fun item => ⟨item, cosineSim sqrtF q item.embedding⟩).enum)) topK

/-- Ranking order on position-tagged scored records: strictly larger
score first, ties broken by smaller store position. -/
def rankedBefore (u v : ℕ × Scored) : Prop :=
  v.2.score < u.2.score ∨ (u.2.score = v.2.score ∧ u.1 < v.1)

/-- Outcome of the ingestion endpoint (POST /api/docs). -/
inductive DocsRes
  | clientError (status : ℕ) (msg : String)
  | serverError (status : ℕ) (msg : String)
  | ok (inserted : ℕ)
deriving DecidableEq

/-- The sequential embedding loop of src/index.js:94-102: embed the
chunks in order, stopping at the first failure. -/
def embedAll (embed : JStr → Except String (List ℚ)) :
    List JStr → Except String (List (List ℚ))
  | [] => .ok []
  | c :: cs =>
    match embed c with
    | .error e => .error e
    | .ok v =>
      match embedAll embed cs with
      | .error e => .error e
      | .ok vs => .ok (v :: vs)

/-- The id `Date.now() + '-' + i` of src/index.js:97. -/
def mkId (now : ℕ) (i : ℕ) : String := toString now ++ "-" ++ toString i

/-- POST /api/docs (src/index.js:82-113).  `now` is the value of
`Date.now()` during the request, `db` the persisted store; the
result pairs the HTTP outcome with the store after the request.
A throw anywhere (in particular from an embedding call) lands in the
catch block before `loadDb`/`saveDb` run, so the store is returned
unchanged on every error path. -/
def docsHandler (embed : JStr → Except String (List ℚ)) (now : ℕ)
    (db : List Rec) (text source : JStr) : DocsRes × List Rec :=
  if trim text = [] then (.clientError 400 "text is required", db)
  else
    let chunks := chunkText text 500
    match embedAll embed chunks with
    | .error _ => (.serverError 500 "Failed to index document", db)
    | .ok embs =>
      let vectors := ((chunks.zip embs).enum).map
        (fun p => Rec.mk (mkId now p.1) p.2.1 source p.2.2)
      (.ok vectors.length, db ++ vectors)

/-- Outcome of the chat endpoint (POST /api/chat). -/
inductive ChatRes
  | clientError (status : ℕ) (msg : String)
  | serverError (status : ℕ) (msg : String)
  | ok (answer : String) (chunks : List ChunkOut)
deriving DecidableEq

/-- POST /api/chat (src/index.js:118-188).  `embed` is the embedding
collaborator applied to the question, `llm` the generation
collaborator applied to the retrieved scored records and the
question; either may fail, which the try/catch surfaces as a 500. -/
def chatHandler (sqrtF : ℚ → ℚ) (embed : JStr → Except String (List ℚ))
    (llm : List Scored → JStr → Except String String)
    (db : List Rec) (question : JStr) (topK : ℤ) : ChatRes :=
  if trim question = [] then .clientError 400 "question is required"
  else if db.length = 0 then .clientError 400 "No documents indexed yet"
  else
    match embed question with
    | .error e => .serverError 500 e
    | .ok qEmbedding =>
      let scored := search sqrtF qEmbedding db topK
      match llm scored question with
      | .error e => .serverError 500 e
      | .ok answer => .ok answer (scored.map toChunkOut)

/-- The chunks list of a successful chat response. -/
def chatChunks : ChatRes → Option (List ChunkOut)
  | .ok _ cs => some cs
  | _ => none

/-- Outcome of the delete endpoint (DELETE /api/docs/:source). -/
inductive DelRes
  | clientError (status : ℕ) (msg : String)
  | notFound (status : ℕ) (msg : String) (source : JStr)
  | ok (removed remaining : ℕ) (source : JStr)
deriving DecidableEq

/-- DELETE /api/docs/:source (src/index.js:190-212).  `decode` is the
`decodeURIComponent` boundary applied to the raw path parameter; the
result pairs the HTTP outcome with the store after the request
(`saveDb` runs only when at least one record was removed). -/
def deleteHandler (decode : JStr → JStr) (db : List Rec) (raw : JStr) :
    DelRes × List Rec :=
  let source := trim (decode raw)
  if source = [] then (.clientError 400 "source is required", db)
  else
    let filtered := db.filter (fun item => item.source != source)
    let removed := db.length - filtered.length
    if removed = 0 then (.notFound 404 "No vectors found for source" source, db)
    else (.ok removed filtered.length source, filtered)

/-! ## Lemmas about whitespace, `trim` and `splitNl` -/

theorem trimLeft_cons_ws {c : Char} {s : JStr} (h : isWs c = true) :
    trimLeft (c :: s) = trimLeft s := by
  simp [trimLeft, List.dropWhile_cons, h]

theorem trim_cons_ws {c : Char} {s : JStr} (h : isWs c = true) :
    trim (c :: s) = trim s := by
  simp [trim, trimLeft_cons_ws h]

theorem trimLeft_eq_nil_iff {s : JStr} : trimLeft s = [] ↔ allWs s := by
  simp [trimLeft, List.dropWhile_eq_nil_iff, allWs]

theorem allWs_reverse {s : JStr} : allWs s.reverse ↔ allWs s := by
  simp [allWs]

theorem allWs_trim_nil {s : JStr} (h : allWs s) : trim s = [] := by
  have h1 : trimLeft s = [] := trimLeft_eq_nil_iff.mpr h
  rw [trim, h1]
  rfl

theorem trim_eq_nil_iff {s : JStr} : trim s = [] ↔ allWs s := by
  constructor
  · intro h
    have h1 : trimLeft (trimLeft s).reverse = [] := by
      have := congrArg List.reverse h
      simpa [trim] using this
    have h2 : allWs (trimLeft s).reverse := trimLeft_eq_nil_iff.mp h1
    have h3 : allWs (trimLeft s) := allWs_reverse.mp h2
    intro c hc
    rw [← List.takeWhile_append_dropWhile isWs s] at hc
    rcases List.mem_append.mp hc with hc | hc
    · exact List.mem_takeWhile_imp hc
    · exact h3 c hc
  · exact allWs_trim_nil

theorem trim_length_le (s : JStr) : (trim s).length ≤ s.length := by
  have h1 : ∀ t : JStr, (trimLeft t).length ≤ t.length := by
    intro t
    simpa [trimLeft] using (List.dropWhile_sublist (l := t) isWs).length_le
  calc (trim s).length = (trimLeft (trimLeft s).reverse).length := by
        simp [trim]
    _ ≤ (trimLeft s).reverse.length := h1 _
    _ = (trimLeft s).length := by simp
    _ ≤ s.length := h1 s

theorem splitNl_ne_nil (s : JStr) : splitNl s ≠ [] := by
  induction s with
  | nil => simp [splitNl]
  | cons c rest ih =>
    by_cases hc : c = '\n'
    · simp [splitNl, hc]
    · simp only [splitNl, if_neg hc]
      cases h : splitNl rest with
      | nil => simp
      | cons l ls => simp

theorem splitNl_append (a b : JStr) :
    splitNl (a ++ '\n' :: b) = splitNl a ++ splitNl b := by
  induction a with
  | nil => simp [splitNl]
  | cons c cs ih =>
    by_cases hc : c = '\n'
    · simp [splitNl, hc, ih]
    · rw [List.cons_append]
      simp only [splitNl, if_neg hc, ih]
      cases h : splitNl cs with
      | nil => exact absurd h (splitNl_ne_nil cs)
      | cons l ls => simp

theorem mem_of_mem_splitNl {s l : JStr} {c : Char}
    (hl : l ∈ splitNl s) (hc : c ∈ l) : c ∈ s := by
  induction s generalizing l with
  | nil =>
    simp only [splitNl, List.mem_singleton] at hl
    subst hl; cases hc
  | cons d rest ih =>
    by_cases hd : d = '\n'
    · simp only [splitNl, if_pos hd, List.mem_cons] at hl
      rcases hl with hl | hl
      · subst hl; cases hc
      · exact List.mem_cons_of_mem d (ih hl hc)
    · simp only [splitNl, if_neg hd] at hl
      cases h : splitNl rest with
      | nil => exact absurd h (splitNl_ne_nil rest)
      | cons l0 ls =>
        rw [h] at hl
        have hl0 : l0 ∈ splitNl rest := by rw [h]; exact List.mem_cons_self _ _
        rcases List.mem_cons.mp hl with hl | hl
        · subst hl
          rcases List.mem_cons.mp hc with hc | hc
          · exact hc ▸ List.mem_cons_self d rest
          · exact List.mem_cons_of_mem d (ih hl0 hc)
        · have hmem : l ∈ splitNl rest := by
            rw [h]; exact List.mem_cons_of_mem l0 hl
          exact List.mem_cons_of_mem d (ih hmem hc)

theorem no_nl_of_mem_splitNl {s l : JStr}
    (hl : l ∈ splitNl s) : '\n' ∉ l := by
  induction s generalizing l with
  | nil =>
    simp only [splitNl, List.mem_singleton] at hl
    subst hl; simp
  | cons d rest ih =>
    by_cases hd : d = '\n'
    · simp only [splitNl, if_pos hd, List.mem_cons] at hl
      rcases hl with hl | hl
      · subst hl; simp
      · exact ih hl
    · simp only [splitNl, if_neg hd] at hl
      cases h : splitNl rest with
      | nil => exact absurd h (splitNl_ne_nil rest)
      | cons l0 ls =>
        rw [h] at hl
        have hl0 : l0 ∈ splitNl rest := by rw [h]; exact List.mem_cons_self _ _
        rcases List.mem_cons.mp hl with hl | hl
        · subst hl
          intro hmem
          rcases List.mem_cons.mp hmem with hmem | hmem
          · exact hd hmem.symm
          · exact ih hl0 hmem
        · have hmem : l ∈ splitNl rest := by
            rw [h]; exact List.mem_cons_of_mem l0 hl
          exact ih hmem

theorem splitNl_eq_single {s : JStr} (h : '\n' ∉ s) : splitNl s = [s] := by
  induction s with
  | nil => rfl
  | cons c rest ih =>
    have hc : c ≠ '\n' := fun hc => h (hc ▸ List.mem_cons_self c rest)
    have hrest : '\n' ∉ rest := fun hm => h (List.mem_cons_of_mem c hm)
    simp only [splitNl, if_neg hc, ih hrest]

/-! ## Lemmas about `nbLines` -/

theorem nbLines_nil : nbLines [] = [] := by decide

theorem nbLines_cons_nl (s : JStr) : nbLines ('\n' :: s) = nbLines s := by
  simp [nbLines, splitNl, trim, trimLeft]

theorem nbLines_cons_ws {c : Char} (s : JStr) (hc : isWs c = true)
    (hn : c ≠ '\n') : nbLines (c :: s) = nbLines s := by
  unfold nbLines
  simp only [splitNl, if_neg hn]
  cases h : splitNl s with
  | nil => exact absurd h (splitNl_ne_nil s)
  | cons l ls => simp [trim_cons_ws hc]

theorem nbLines_append_nl (a b : JStr) :
    nbLines (a ++ '\n' :: b) = nbLines a ++ nbLines b := by
  simp [nbLines, splitNl_append]

theorem allWs_nbLines {s : JStr} (h : allWs s) : nbLines s = [] := by
  rw [nbLines, List.filter_eq_nil_iff]
  intro t ht
  rcases List.mem_map.mp ht with ⟨l, hl, rfl⟩
  have : allWs l := fun c hc => h c (mem_of_mem_splitNl hl hc)
  simp [allWs_trim_nil this]

theorem nbLines_trimLeft (s : JStr) : nbLines (trimLeft s) = nbLines s := by
  induction s with
  | nil => rfl
  | cons c rest ih =>
    cases hw : isWs c with
    | false => simp [trimLeft, List.dropWhile_cons, hw]
    | true =>
      rw [trimLeft, List.dropWhile_cons, hw]
      by_cases hn : c = '\n'
      · subst hn
        rw [if_pos rfl, ← trimLeft, ih, nbLines_cons_nl]
      · rw [if_pos rfl, ← trimLeft, ih, nbLines_cons_ws rest hw hn]

theorem splitNl_snoc {c : Char} (hc : c ≠ '\n') (s : JStr) :
    splitNl (s ++ [c]) = appendLast c (splitNl s) := by
  induction s with
  | nil => simp [splitNl, if_neg hc, appendLast]
  | cons d rest ih =>
    by_cases hd : d = '\n'
    · rw [List.cons_append]
      simp only [splitNl, if_pos hd, ih]
      cases h : splitNl rest with
      | nil => exact absurd h (splitNl_ne_nil rest)
      | cons l ls => cases ls <;> simp [appendLast]
    · rw [List.cons_append]
      simp only [splitNl, if_neg hd, ih]
      cases h : splitNl rest with
      | nil => exact absurd h (splitNl_ne_nil rest)
      | cons l ls =>
        cases ls with
        | nil => simp [appendLast]
        | cons l' ls' => simp [appendLast]

theorem trim_snoc_ws {c : Char} (hc : isWs c = true) (s : JStr) :
    trim (s ++ [c]) = trim s := by
  cases h : trimLeft s with
  | nil =>
    have hs : allWs s := trimLeft_eq_nil_iff.mp h
    have hsc : allWs (s ++ [c]) := by
      intro d hd
      rcases List.mem_append.mp hd with hd | hd
      · exact hs d hd
      · rcases List.mem_singleton.mp hd with rfl
        exact hc
    rw [allWs_trim_nil hsc, allWs_trim_nil hs]
  | cons t ts =>
    have h2 : trimLeft (s ++ [c]) = trimLeft s ++ [c] := by
      rw [trimLeft, List.dropWhile_append]
      rw [trimLeft] at h
      simp [trimLeft, h]
    rw [trim, h2, List.reverse_append]
    simp only [List.reverse_singleton, List.singleton_append]
    rw [trimLeft_cons_ws hc, trim]

theorem appendLast_map_trim {c : Char} (hc : isWs c = true) :
    ∀ L : List JStr, L ≠ [] → (appendLast c L).map trim = L.map trim
  | [], h => absurd rfl h
  | [l], _ => by simp [appendLast, trim_snoc_ws hc]
  | l :: l' :: ls, _ => by
    have ih := appendLast_map_trim hc (l' :: ls) (by simp)
    simp only [appendLast, List.map_cons] at ih ⊢
    rw [ih]

theorem nbLines_snoc_ws {c : Char} (hc : isWs c = true) (s : JStr) :
    nbLines (s ++ [c]) = nbLines s := by
  by_cases hn : c = '\n'
  · subst hn
    have : s ++ ['\n'] = s ++ '\n' :: ([] : JStr) := rfl
    rw [this, nbLines_append_nl, nbLines_nil, List.append_nil]
  · rw [nbLines, splitNl_snoc hn, appendLast_map_trim hc _ (splitNl_ne_nil s), nbLines]

theorem nbLines_append_allWs {w : JStr} (h : allWs w) :
    ∀ u : JStr, nbLines (u ++ w) = nbLines u := by
  induction w with
  | nil => intro u; rw [List.append_nil]
  | cons c w' ih =>
    intro u
    have hc : isWs c = true := h c (List.mem_cons_self c w')
    have hw' : allWs w' := fun d hd => h d (List.mem_cons_of_mem c hd)
    have : u ++ c :: w' = (u ++ [c]) ++ w' := by simp
    rw [this, ih hw' (u ++ [c]), nbLines_snoc_ws hc]

theorem nbLines_trim (s : JStr) : nbLines (trim s) = nbLines s := by
  have key : trimLeft s = trim s ++ (List.takeWhile isWs (trimLeft s).reverse).reverse := by
    calc trimLeft s
        = (trimLeft s).reverse.reverse := by rw [List.reverse_reverse]
      _ = (List.takeWhile isWs (trimLeft s).reverse
            ++ List.dropWhile isWs (trimLeft s).reverse).reverse := by
          rw [List.takeWhile_append_dropWhile]
      _ = (List.dropWhile isWs (trimLeft s).reverse).reverse
            ++ (List.takeWhile isWs (trimLeft s).reverse).reverse := by
          rw [List.reverse_append]
      _ = trim s ++ (List.takeWhile isWs (trimLeft s).reverse).reverse := rfl
  have hws : allWs (List.takeWhile isWs (trimLeft s).reverse).reverse := by
    intro d hd
    rw [List.mem_reverse] at hd
    exact List.mem_takeWhile_imp hd
  calc nbLines (trim s)
      = nbLines (trim s ++ (List.takeWhile isWs (trimLeft s).reverse).reverse) := by
        rw [nbLines_append_allWs hws]
    _ = nbLines (trimLeft s) := by rw [← key]
    _ = nbLines s := nbLines_trimLeft s

theorem trim_nil_nbLines {s : JStr} (h : trim s = []) : nbLines s = [] := by
  rw [← nbLines_trim, h, nbLines_nil]

/-! ## Chunking lemmas -/

theorem flatMap_nbLines_eq {L : List JStr} (h : ∀ l ∈ L, '\n' ∉ l) :
    L.flatMap nbLines = (L.map trim).filter (fun l => !l.isEmpty) := by
  induction L with
  | nil => simp
  | cons l L' ih =>
    have hl : '\n' ∉ l := h l (List.mem_cons_self l L')
    have hL' : ∀ l' ∈ L', '\n' ∉ l' := fun l' hm => h l' (List.mem_cons_of_mem l hm)
    have h1 : nbLines l = [trim l].filter (fun t => !t.isEmpty) := by
      rw [nbLines, splitNl_eq_single hl, List.map_singleton]
    simp only [List.flatMap_cons, List.map_cons, List.filter_cons, ih hL', h1]
    cases (!(trim l).isEmpty) <;> simp

theorem splitNl_flatMap_nbLines (s : JStr) :
    (splitNl s).flatMap nbLines = nbLines s := by
  rw [flatMap_nbLines_eq (fun l hl => no_nl_of_mem_splitNl hl), nbLines]

theorem joinNl_nbLines : ∀ chunks : List JStr,
    nbLines (joinNl chunks) = chunks.flatMap nbLines
  | [] => by simp [joinNl, nbLines_nil]
  | [c] => by simp [joinNl]
  | c :: c' :: cs => by
    have ih := joinNl_nbLines (c' :: cs)
    rw [show joinNl (c :: c' :: cs) = c ++ '\n' :: joinNl (c' :: cs) from rfl,
      nbLines_append_nl, ih]
    simp [List.flatMap_cons]

theorem chunkLoop_flatMap_nbLines (mc : ℤ) :
    ∀ (lines : List JStr) (current : JStr),
      (chunkLoop mc lines current).flatMap nbLines
        = nbLines current ++ lines.flatMap nbLines
  | [], current => by
    rw [chunkLoop]
    by_cases h : trim current = []
    · simp [h, trim_nil_nbLines h]
    · simp [h, nbLines_trim]
  | line :: rest, current => by
    rw [chunkLoop]
    by_cases hover : (current.length : ℤ) + 1 + (line.length : ℤ) > mc
    · rw [if_pos hover, List.flatMap_append,
        chunkLoop_flatMap_nbLines mc rest line, List.flatMap_cons]
      by_cases h : trim current = []
      · simp [h, trim_nil_nbLines h]
      · simp [h, nbLines_trim]
    · rw [if_neg hover, chunkLoop_flatMap_nbLines mc rest (current ++ '\n' :: line),
        nbLines_append_nl, List.flatMap_cons, List.append_assoc]

theorem chunkLoop_allWs (mc : ℤ) :
    ∀ (lines : List JStr) (current : JStr),
      (∀ l ∈ lines, allWs l) → allWs current → chunkLoop mc lines current = []
  | [], current => fun _ hcur => by
    rw [chunkLoop, if_pos (allWs_trim_nil hcur)]
  | line :: rest, current => fun hlines hcur => by
    have hline : allWs line := hlines line (List.mem_cons_self line rest)
    have hrest : ∀ l ∈ rest, allWs l := fun l hm => hlines l (List.mem_cons_of_mem line hm)
    rw [chunkLoop]
    by_cases hover : (current.length : ℤ) + 1 + (line.length : ℤ) > mc
    · rw [if_pos hover, if_pos (allWs_trim_nil hcur),
        chunkLoop_allWs mc rest line hrest hline, List.nil_append]
    · have hmix : allWs (current ++ '\n' :: line) := by
        intro d hd
        rcases List.mem_append.mp hd with hd | hd
        · exact hcur d hd
        · rcases List.mem_cons.mp hd with rfl | hd
          · decide
          · exact hline d hd
      rw [if_neg hover, chunkLoop_allWs mc rest (current ++ '\n' :: line) hrest hmix]

theorem chunkLoop_size_bound (mc : ℤ) :
    ∀ (L0 lines : List JStr) (current : JStr),
      (∀ l ∈ lines, l ∈ L0) →
      (current = [] ∨ (current.length : ℤ) ≤ mc ∨
        ∃ l, l ∈ L0 ∧ current = l ∧ mc < (l.length : ℤ)) →
      ∀ c ∈ chunkLoop mc lines current,
        (c.length : ℤ) ≤ mc ∨ ∃ l, l ∈ L0 ∧ c = trim l ∧ mc < (l.length : ℤ)
  | L0, [], current => fun _ hinv c hc => by
    rw [chunkLoop] at hc
    by_cases h : trim current = []
    · rw [if_pos h] at hc; cases hc
    · rw [if_neg h] at hc
      rcases List.mem_singleton.mp hc with rfl
      rcases hinv with rfl | hlen | ⟨l, hl, hcl, hov⟩
      · exact absurd rfl h
      · left
        calc ((trim current).length : ℤ) ≤ (current.length : ℤ) := by
              exact_mod_cast trim_length_le current
          _ ≤ mc := hlen
      · exact Or.inr ⟨l, hl, by rw [hcl], hov⟩
  | L0, line :: rest, current => fun hlines hinv c hc => by
    have hline : line ∈ L0 := hlines line (List.mem_cons_self line rest)
    have hrest : ∀ l ∈ rest, l ∈ L0 := fun l hm => hlines l (List.mem_cons_of_mem line hm)
    rw [chunkLoop] at hc
    by_cases hover : (current.length : ℤ) + 1 + (line.length : ℤ) > mc
    · rw [if_pos hover] at hc
      rcases List.mem_append.mp hc with hc | hc
      · by_cases h : trim current = []
        · rw [if_pos h] at hc; cases hc
        · rw [if_neg h] at hc
          rcases List.mem_singleton.mp hc with rfl
          rcases hinv with rfl | hlen | ⟨l, hl, hcl, hov⟩
          · exact absurd rfl h
          · left
            calc ((trim current).length : ℤ) ≤ (current.length : ℤ) := by
                  exact_mod_cast trim_length_le current
              _ ≤ mc := hlen
          · exact Or.inr ⟨l, hl, by rw [hcl], hov⟩
      · refine chunkLoop_size_bound mc L0 rest line hrest ?_ c hc
        by_cases hlen : (line.length : ℤ) ≤ mc
        · exact Or.inr (Or.inl hlen)
        · exact Or.inr (Or.inr ⟨line, hline, rfl, by omega⟩)
    · rw [if_neg hover] at hc
      refine chunkLoop_size_bound mc L0 rest (current ++ '\n' :: line) hrest ?_ c hc
      have hlen : ((current ++ '\n' :: line).length : ℤ) ≤ mc := by
        rw [List.length_append, List.length_cons]
        push_cast
        omega
      exact Or.inr (Or.inl hlen)

/-- Claim C4: every chunk respects the `maxChars` bound except when it
is a single oversized input line (kept whole, trimmed); and an
empty or whitespace-only input yields zero chunks. -/
theorem chunkText_size_bound (text : JStr) (mc : ℤ) :
    (∀ c ∈ chunkText text mc,
        (c.length : ℤ) ≤ mc ∨
        ∃ l, l ∈ splitNl text ∧ c = trim l ∧ mc < (l.length : ℤ)) ∧
    (allWs text → chunkText text mc = []) := by
  constructor
  · intro c hc
    exact chunkLoop_size_bound mc (splitNl text) (splitNl text) []
      (fun l hl => hl) (Or.inl rfl) c hc
  · intro h
    exact chunkLoop_allWs mc (splitNl text) []
      (fun l hl d hd => h d (mem_of_mem_splitNl hl hd)) (by intro d hd; cases hd)

theorem chunkText_size_bound_witness :
    ((['a', 'b'] : JStr) ∈ chunkText ['a', 'b'] 1 ∧
      (((['a', 'b'] : JStr).length : ℤ) ≤ 1 ∨
        ∃ l, l ∈ splitNl ['a', 'b'] ∧ (['a', 'b'] : JStr) = trim l ∧ 1 < (l.length : ℤ))) ∧
    (allWs [' '] ∧ chunkText [' '] 5 = []) :=
  ⟨⟨by decide, (chunkText_size_bound ['a', 'b'] 1).1 ['a', 'b'] (by decide)⟩,
   ⟨by decide, (chunkText_size_bound [' '] 5).2 (by decide)⟩⟩

/-- Claim C7 (literal reading refuted): chunk concatenation does not
reconstruct the original non-blank lines verbatim.  For the input
consisting of the single line " a" the only chunk is the trimmed
"a", so the reconstructed line differs from the original line. -/
theorem chunk_concat_not_verbatim :
    ¬ (splitNl (joinNl (chunkText [' ', 'a'] 500))
        = (splitNl [' ', 'a']).filter (fun l => !(trim l).isEmpty)) := by
  decide

/-- Claim C7 (amended): concatenating the chunks with line breaks
reinserted preserves the trimmed non-blank lines of the input, in
order. -/
theorem chunkText_preserves_nbLines (text : JStr) (mc : ℤ) :
    nbLines (joinNl (chunkText text mc)) = nbLines text := by
  rw [joinNl_nbLines, chunkText, chunkLoop_flatMap_nbLines, nbLines_nil,
    List.nil_append, splitNl_flatMap_nbLines]

/-! ## Sorting lemmas: the stable descending sort of the retriever -/

theorem mem_insertDesc {key : α → ℚ} {x z : α} :
    ∀ {l : List α}, z ∈ insertDesc key x l ↔ z = x ∨ z ∈ l
  | [] => by simp [insertDesc]
  | y :: ys => by
    rw [insertDesc]
    by_cases h : key y < key x
    · rw [if_pos h]
      simp [List.mem_cons]
    · rw [if_neg h]
      simp only [List.mem_cons, mem_insertDesc (l := ys)]
      tauto

theorem length_insertDesc {key : α → ℚ} {x : α} :
    ∀ l : List α, (insertDesc key x l).length = l.length + 1
  | [] => rfl
  | y :: ys => by
    rw [insertDesc]
    by_cases h : key y < key x
    · rw [if_pos h]; rfl
    · rw [if_neg h, List.length_cons, length_insertDesc ys, List.length_cons]

theorem sortJs_length {key : α → ℚ} (l : List α) :
    (sortJs key l).length = l.length := by
  suffices h : ∀ (l acc : List α),
      (l.foldl (fun acc x => insertDesc key x acc) acc).length = acc.length + l.length by
    simpa using h l []
  intro l
  induction l with
  | nil => intro acc; simp
  | cons x xs ih =>
    intro acc
    rw [List.foldl_cons, ih, length_insertDesc, List.length_cons]
    omega

theorem pairwise_insertDesc {key : α → ℚ} {x : α} :
    ∀ {l : List α}, l.Pairwise (fun u v => key v ≤ key u) →
      (insertDesc key x l).Pairwise (fun u v => key v ≤ key u)
  | [], _ => List.pairwise_singleton _ x
  | y :: ys, h => by
    rcases List.pairwise_cons.mp h with ⟨hy, hys⟩
    rw [insertDesc]
    by_cases hk : key y < key x
    · rw [if_pos hk]
      refine List.pairwise_cons.mpr ⟨?_, h⟩
      intro z hz
      rcases List.mem_cons.mp hz with rfl | hz
      · exact le_of_lt hk
      · exact le_trans (hy z hz) (le_of_lt hk)
    · rw [if_neg hk]
      refine List.pairwise_cons.mpr ⟨?_, pairwise_insertDesc hys⟩
      intro z hz
      rcases mem_insertDesc.mp hz with rfl | hz
      · exact le_of_not_lt hk
      · exact hy z hz

theorem sortJs_pairwise {key : α → ℚ} (l : List α) :
    (sortJs key l).Pairwise (fun u v => key v ≤ key u) := by
  suffices h : ∀ (l acc : List α),
      acc.Pairwise (fun u v => key v ≤ key u) →
      (l.foldl (fun acc x => insertDesc key x acc) acc).Pairwise
        (fun u v => key v ≤ key u) from
    h l [] List.Pairwise.nil
  intro l
  induction l with
  | nil => intro acc hacc; exact hacc
  | cons x xs ih =>
    intro acc hacc
    exact ih (insertDesc key x acc) (pairwise_insertDesc hacc)

theorem insertDesc_stable {x : ℕ × Scored} :
    ∀ {l : List (ℕ × Scored)},
      l.Pairwise rankedBefore → (∀ y ∈ l, y.1 < x.1) →
      (insertDesc (fun p => p.2.score) x l).Pairwise rankedBefore
  | [], _, _ => List.pairwise_singleton _ x
  | y :: ys, h, hidx => by
    rcases List.pairwise_cons.mp h with ⟨hy, hys⟩
    rw [insertDesc]
    by_cases hk : y.2.score < x.2.score
    · rw [if_pos hk]
      refine List.pairwise_cons.mpr ⟨?_, h⟩
      intro z hz
      rcases List.mem_cons.mp hz with rfl | hz
      · exact Or.inl hk
      · rcases hy z hz with hlt | ⟨heq, _⟩
        · exact Or.inl (lt_trans hlt hk)
        · exact Or.inl (heq ▸ hk)
    · rw [if_neg hk]
      have hidx' : ∀ y' ∈ ys, y'.1 < x.1 :=
        fun y' hm => hidx y' (List.mem_cons_of_mem y hm)
      refine List.pairwise_cons.mpr ⟨?_, insertDesc_stable hys hidx'⟩
      intro z hz
      rcases mem_insertDesc.mp hz with rfl | hz
      · rcases lt_or_eq_of_le (le_of_not_lt hk) with hlt | heq
        · exact Or.inl hlt
        · exact Or.inr ⟨heq.symm, hidx y (List.mem_cons_self y ys)⟩
      · exact hy z hz

theorem sortJs_enumFrom_stable (l : List Scored) :
    ∀ (n : ℕ) (acc : List (ℕ × Scored)),
      acc.Pairwise rankedBefore → (∀ y ∈ acc, y.1 < n) →
      ((l.enumFrom n).foldl (fun acc x => insertDesc (fun p => p.2.score) x acc)
        acc).Pairwise rankedBefore := by
  induction l with
  | nil => intro n acc hacc _; exact hacc
  | cons x xs ih =>
    intro n acc hacc hidx
    rw [List.enumFrom_cons, List.foldl_cons]
    refine ih (n + 1) (insertDesc (fun p => p.2.score) (n, x) acc)
      (insertDesc_stable hacc hidx) ?_
    intro y hy
    rcases mem_insertDesc.mp hy with rfl | hy
    · exact Nat.lt_succ_self n
    · exact Nat.lt_succ_of_lt (hidx y hy)

theorem sortJs_enum_stable (l : List Scored) :
    (sortJs (fun p => p.2.score) l.enum).Pairwise rankedBefore := by
  rw [sortJs, List.enum_eq_enumFrom]
  exact sortJs_enumFrom_stable l 0 [] List.Pairwise.nil (by intro y hy; cases hy)

theorem insertDesc_map_snd (x : ℕ × Scored) :
    ∀ l : List (ℕ × Scored),
      (insertDesc (fun p => p.2.score) x l).map Prod.snd
        = insertDesc Scored.score x.2 (l.map Prod.snd)
  | [] => rfl
  | y :: ys => by
    rw [insertDesc, List.map_cons, insertDesc]
    by_cases hk : y.2.score < x.2.score
    · rw [if_pos hk, if_pos hk]
      rfl
    · rw [if_neg hk, if_neg hk, List.map_cons, insertDesc_map_snd x ys]

theorem sortJs_map_snd (l : List (ℕ × Scored)) :
    (sortJs (fun p => p.2.score) l).map Prod.snd = sortJs Scored.score (l.map Prod.snd) := by
  suffices h : ∀ (l acc : List (ℕ × Scored)),
      ((l.foldl (fun acc x => insertDesc (fun p => p.2.score) x acc) acc).map Prod.snd)
        = (l.map Prod.snd).foldl (fun acc x => insertDesc Scored.score x acc)
            (acc.map Prod.snd) from h l []
  intro l
  induction l with
  | nil => intro acc; rfl
  | cons x xs ih =>
    intro acc
    rw [List.foldl_cons, List.map_cons, List.foldl_cons, ih, insertDesc_map_snd]

/-- Claim C1: for every store and query, the chat-flow similarity
search returns at most `min(topK, N)` results, sorted in descending
order of cosine-similarity score; ties are broken by the records'
original store order (the position-tagged ranking `searchIdx`, whose
tag-erasure is `search`, is strictly ordered by score with ties in
increasing store position). -/
theorem search_ranking (sqrtF : ℚ → ℚ) (q : List ℚ) (db : List Rec) (topK : ℤ)
    (h : 0 ≤ topK) :
    (search sqrtF q db topK).length ≤ min topK.toNat db.length ∧
    (search sqrtF q db topK).Pairwise (fun u v => v.score ≤ u.score) ∧
    search sqrtF q db topK = (searchIdx sqrtF q db topK).map Prod.snd ∧
    (searchIdx sqrtF q db topK).Pairwise rankedBefore := by
  set f := fun item : Rec => Scored.mk item (cosineSim sqrtF q item.embedding) with hf
  have hslice : ∀ n : ℕ, sliceEnd n topK = topK.toNat := by
    intro n
    rw [sliceEnd, if_neg (not_lt.mpr h)]
  refine ⟨?_, ?_, ?_, ?_⟩
  · rw [search, jsSlice0, List.length_take, hslice, sortJs_length, List.length_map]
  · rw [search, jsSlice0]
    exact List.Pairwise.sublist (List.take_sublist _ _) (sortJs_pairwise (db.map f))
  · rw [search, searchIdx, jsSlice0, jsSlice0, List.map_take, sortJs_map_snd,
      List.enum_map_snd, hslice, hslice]
  · rw [searchIdx, jsSlice0]
    exact List.Pairwise.sublist (List.take_sublist _ _) (sortJs_enum_stable (db.map f))

theorem search_ranking_witness :
    (0 : ℤ) ≤ 1 ∧
    ((search (fun x => x) [1] [Rec.mk "r1" ['t'] ['s'] [1]] 1).length
        ≤ min (1 : ℤ).toNat [Rec.mk "r1" ['t'] ['s'] [1]].length ∧
      (search (fun x => x) [1] [Rec.mk "r1" ['t'] ['s'] [1]] 1).Pairwise
        (fun u v => v.score ≤ u.score) ∧
      search (fun x => x) [1] [Rec.mk "r1" ['t'] ['s'] [1]] 1
        = (searchIdx (fun x => x) [1] [Rec.mk "r1" ['t'] ['s'] [1]] 1).map Prod.snd ∧
      (searchIdx (fun x => x) [1] [Rec.mk "r1" ['t'] ['s'] [1]] 1).Pairwise rankedBefore) :=
  ⟨by decide, search_ranking (fun x => x) [1] [Rec.mk "r1" ['t'] ['s'] [1]] 1 (by decide)⟩

/-! ## Cosine similarity symmetry -/

theorem foldl_sum_congr : ∀ (l : List ℕ) (f g : ℕ → ℚ),
    (∀ i ∈ l, f i = g i) → ∀ s : ℚ,
    l.foldl (fun t i => t + f i) s = l.foldl (fun t i => t + g i) s
  | [], _, _, _ => fun _ => rfl
  | i :: is, f, g, h => fun s => by
    rw [List.foldl_cons, List.foldl_cons, h i (List.mem_cons_self i is),
      foldl_sum_congr is f g (fun j hj => h j (List.mem_cons_of_mem i hj))]

/-- Claim C8: cosine similarity as computed by `cosineSim` is
symmetric on equal-length vectors (for any interpretation of the
square-root primitive). -/
theorem cosineSim_symm (sqrtF : ℚ → ℚ) (a b : List ℚ)
    (h : a.length = b.length) :
    cosineSim sqrtF a b = cosineSim sqrtF b a := by
  simp only [cosineSim, h]
  have hdot : (List.range b.length).foldl (fun s i => s + a.getD i 0 * b.getD i 0) 0
      = (List.range b.length).foldl (fun s i => s + b.getD i 0 * a.getD i 0) 0 :=
    foldl_sum_congr _ _ _ (fun i _ => mul_comm _ _) 0
  rw [hdot, mul_comm (sqrtF ((List.range b.length).foldl (fun s i => s + a.getD i 0 * a.getD i 0) 0))]

theorem cosineSim_symm_witness :
    ([1, 2] : List ℚ).length = ([3, 4] : List ℚ).length ∧
    cosineSim (fun x => x) [1, 2] [3, 4] = cosineSim (fun x => x) [3, 4] [1, 2] :=
  ⟨rfl, cosineSim_symm (fun x => x) [1, 2] [3, 4] rfl⟩

/-! ## Endpoint-level lemmas and claims -/

theorem embedAll_ok_mem {embed : JStr → Except String (List ℚ)} :
    ∀ {cs : List JStr} {vs : List (List ℚ)},
      embedAll embed cs = .ok vs → ∀ c ∈ cs, ∃ v, embed c = .ok v
  | [], _, _ => fun c hc => absurd hc (List.not_mem_nil c)
  | c0 :: cs, vs, h => by
    intro c hc
    rw [embedAll] at h
    cases h0 : embed c0 with
    | error e => rw [h0] at h; cases h
    | ok v0 =>
      rw [h0] at h
      cases h1 : embedAll embed cs with
      | error e => rw [h1] at h; cases h
      | ok vs' =>
        rcases List.mem_cons.mp hc with rfl | hc
        · exact ⟨v0, h0⟩
        · exact embedAll_ok_mem h1 c hc

/-- Claim C5: if embedding fails for some chunk of the request text,
the whole ingestion batch is aborted with nothing persisted: the
store component of the result equals the store before the request. -/
theorem docs_abort_on_embed_failure (embed : JStr → Except String (List ℚ))
    (now : ℕ) (db : List Rec) (text source c : JStr) (e : String)
    (hc : c ∈ chunkText text 500) (he : embed c = .error e) :
    (docsHandler embed now db text source).2 = db := by
  rw [docsHandler]
  by_cases ht : trim text = []
  · rw [if_pos ht]
  · rw [if_neg ht]
    cases hall : embedAll embed (chunkText text 500) with
    | error e' => simp [hall]
    | ok vs =>
      rcases embedAll_ok_mem hall c hc with ⟨v, hv⟩
      rw [hv] at he
      cases he

theorem docs_abort_on_embed_failure_witness :
    ((['h', 'i'] : JStr) ∈ chunkText ['h', 'i'] 500) ∧
    ((fun _ : JStr => (.error "boom" : Except String (List ℚ))) ['h', 'i'] = .error "boom") ∧
    (docsHandler (fun _ => .error "boom") 7 [Rec.mk "r1" ['t'] ['s'] [1]]
        ['h', 'i'] ['s']).2 = [Rec.mk "r1" ['t'] ['s'] [1]] :=
  ⟨by decide, rfl,
    docs_abort_on_embed_failure (fun _ => .error "boom") 7 [Rec.mk "r1" ['t'] ['s'] [1]]
      ['h', 'i'] ['s'] ['h', 'i'] "boom" (by decide) rfl⟩

/-- Claim C2 (refuted by the code): record ids are not unique across
ingestion batches that observe the same `Date.now()` value.  Running
the ingestion handler twice with `now = 1000` (one one-chunk text
each) yields a store of two distinct records that both carry the id
"1000-0". -/
theorem docs_duplicate_ids :
    (((docsHandler (fun _ => .ok [1]) 1000
        ((docsHandler (fun _ => .ok [1]) 1000 [] ['a'] ['s']).2) ['b'] ['s']).2).map Rec.id
      = ["1000-0", "1000-0"]) ∧
    ¬ List.Nodup (((docsHandler (fun _ => .ok [1]) 1000
        ((docsHandler (fun _ => .ok [1]) 1000 [] ['a'] ['s']).2) ['b'] ['s']).2).map Rec.id) := by
  constructor
  · rfl
  · decide

/-- Claim C6: a chat request with a non-blank question against an
empty persisted store is refused with HTTP 400 rather than answered;
the result is this client error for every embedder and every LLM, so
no generation happens. -/
theorem chat_empty_store (sqrtF : ℚ → ℚ) (embed : JStr → Except String (List ℚ))
    (llm : List Scored → JStr → Except String String) (question : JStr) (topK : ℤ)
    (h : trim question ≠ []) :
    chatHandler sqrtF embed llm [] question topK
      = .clientError 400 "No documents indexed yet" := by
  rw [chatHandler, if_neg h, if_pos (by rfl : ([] : List Rec).length = 0)]

theorem chat_empty_store_witness :
    trim ['q'] ≠ [] ∧
    chatHandler (fun x => x) (fun _ => .ok [1]) (fun _ _ => .ok "A") [] ['q'] 5
      = .clientError 400 "No documents indexed yet" :=
  ⟨by decide,
    chat_empty_store (fun x => x) (fun _ => .ok [1]) (fun _ _ => .ok "A") ['q'] 5 (by decide)⟩

/-- Claim C10: a delete request whose URL-decoded and trimmed source
parameter is blank is rejected with HTTP 400 and the store component
is returned untouched (the handler returns before `loadDb`). -/
theorem delete_blank_source (decode : JStr → JStr) (db : List Rec) (raw : JStr)
    (h : trim (decode raw) = []) :
    deleteHandler decode db raw = (.clientError 400 "source is required", db) := by
  simp [deleteHandler, h]

theorem delete_blank_source_witness :
    trim ((fun s : JStr => s) [' ', ' ']) = [] ∧
    deleteHandler (fun s => s) [Rec.mk "r1" ['t'] ['s'] [1]] [' ', ' ']
      = (.clientError 400 "source is required", [Rec.mk "r1" ['t'] ['s'] [1]]) :=
  ⟨by decide, delete_blank_source (fun s => s) [Rec.mk "r1" ['t'] ['s'] [1]] [' ', ' '] (by decide)⟩

theorem filter_source_partition (db : List Rec) (s : JStr) :
    (db.filter (fun r => r.source != s)).length
      + (db.filter (fun r => r.source == s)).length = db.length := by
  induction db with
  | nil => rfl
  | cons r rs ih =>
    simp only [List.filter_cons]
    cases hb : (r.source == s) with
    | true => simp [bne, hb, List.length_cons, ← ih]; omega
    | false => simp [bne, hb, List.length_cons, ← ih]; omega

theorem filter_ne_all (db : List Rec) (s : JStr)
    (h : (db.filter (fun r => r.source == s)).length = 0) :
    db.filter (fun r => r.source != s) = db := by
  rw [List.filter_eq_self]
  intro r hr
  rw [List.length_eq_zero] at h
  have hnot := List.filter_eq_nil_iff.mp h r hr
  simp only [Bool.not_eq_true] at hnot
  simp [bne, hnot]

/-- Claim C3: for a non-blank (decoded, trimmed) source, deletion
keeps exactly the records whose source differs from it (all others
removed, order preserved); the response reports the number removed
and the number remaining, and is NotFound(404) exactly when zero
records matched. -/
theorem delete_by_source (decode : JStr → JStr) (db : List Rec) (raw : JStr)
    (h : trim (decode raw) ≠ []) :
    (deleteHandler decode db raw).2
      = db.filter (fun r => r.source != trim (decode raw)) ∧
    ((db.filter (fun r => r.source == trim (decode raw))).length = 0 →
      (deleteHandler decode db raw).1
        = .notFound 404 "No vectors found for source" (trim (decode raw))) ∧
    ((db.filter (fun r => r.source == trim (decode raw))).length ≠ 0 →
      (deleteHandler decode db raw).1
        = .ok (db.filter (fun r => r.source == trim (decode raw))).length
            (db.filter (fun r => r.source != trim (decode raw))).length
            (trim (decode raw))) := by
  have hpart := filter_source_partition db (trim (decode raw))
  rw [deleteHandler]
  simp only [if_neg h]
  by_cases hM : (db.filter (fun r => r.source == trim (decode raw))).length = 0
  · have hz : db.length - (db.filter (fun r => r.source != trim (decode raw))).length = 0 := by
      omega
    rw [if_pos hz]
    refine ⟨(filter_ne_all db (trim (decode raw)) hM).symm, fun _ => rfl, fun hM' => absurd hM hM'⟩
  · have hz : ¬ db.length - (db.filter (fun r => r.source != trim (decode raw))).length = 0 := by
      omega
    rw [if_neg hz]
    refine ⟨rfl, fun hM' => absurd hM' hM, fun _ => ?_⟩
    have : db.length - (db.filter (fun r => r.source != trim (decode raw))).length
        = (db.filter (fun r => r.source == trim (decode raw))).length := by omega
    rw [this]

theorem delete_by_source_witness :
    trim ((fun s : JStr => s) ['g']) ≠ [] ∧
    ((deleteHandler (fun s => s) [Rec.mk "r1" ['t'] ['g'] [1]] ['g']).2
        = [Rec.mk "r1" ['t'] ['g'] [1]].filter (fun r => r.source != trim ['g']) ∧
      (([Rec.mk "r1" ['t'] ['g'] [1]].filter (fun r => r.source == trim ['g'])).length = 0 →
        (deleteHandler (fun s => s) [Rec.mk "r1" ['t'] ['g'] [1]] ['g']).1
          = .notFound 404 "No vectors found for source" (trim ['g'])) ∧
      (([Rec.mk "r1" ['t'] ['g'] [1]].filter (fun r => r.source == trim ['g'])).length ≠ 0 →
        (deleteHandler (fun s => s) [Rec.mk "r1" ['t'] ['g'] [1]] ['g']).1
          = .ok ([Rec.mk "r1" ['t'] ['g'] [1]].filter (fun r => r.source == trim ['g'])).length
              ([Rec.mk "r1" ['t'] ['g'] [1]].filter (fun r => r.source != trim ['g'])).length
              (trim ['g']))) :=
  ⟨by decide, delete_by_source (fun s => s) [Rec.mk "r1" ['t'] ['g'] [1]] ['g'] (by decide)⟩

/-- Claim C9 (refuted for negative topK): with two stored records and
`topK = -1`, the chat endpoint succeeds but returns one chunk, not an
empty array — JS `slice(0, -1)` keeps all but the last element. -/
theorem chat_negative_topK_not_empty :
    (chatChunks (chatHandler (fun x => x) (fun _ => .ok [1]) (fun _ _ => .ok "A")
        [Rec.mk "r1" ['t'] ['s'] [1], Rec.mk "r2" ['u'] ['s'] [1]]
        ['q'] (-1))).map List.length = some 1 := by
  rw [chatHandler,
    if_neg (by decide : ¬ trim ['q'] = []),
    if_neg (by decide :
      ¬ ([Rec.mk "r1" ['t'] ['s'] [1], Rec.mk "r2" ['u'] ['s'] [1]] : List Rec).length = 0)]
  simp only [search, jsSlice0, sortJs, List.map_cons, List.map_nil, List.foldl_cons,
    List.foldl_nil, insertDesc, lt_self_iff_false, if_false, List.length_cons,
    List.length_nil, sliceEnd, chatChunks, Option.map_some']
  rfl

/-- Claim C9 (amended): a chat request with `topK ≤ 0` against a
non-empty store is not rejected: when the embedder and the LLM
succeed, the response is a success whose chunks are the first
`sliceEnd N topK` entries of the ranking — empty for `topK = 0`, and
the first `max(N + topK, 0)` ranked records for negative `topK`
(JS slice semantics). -/
theorem chat_nonpositive_topK (sqrtF : ℚ → ℚ) (embed : JStr → Except String (List ℚ))
    (llm : List Scored → JStr → Except String String) (db : List Rec)
    (question : JStr) (topK : ℤ) (qv : List ℚ) (ans : String)
    (hdb : db ≠ []) (hq : trim question ≠ []) (hk : topK ≤ 0)
    (hemb : embed question = .ok qv)
    (hllm : llm (search sqrtF qv db topK) question = .ok ans) :
    chatHandler sqrtF embed llm db question topK
      = .ok ans ((search sqrtF qv db topK).map toChunkOut) ∧
    (search sqrtF qv db topK).length = sliceEnd db.length topK := by
  constructor
  · rw [chatHandler, if_neg hq,
      if_neg (by simpa [List.length_eq_zero] using hdb), hemb]
    simp only [hllm]
  · rw [search, jsSlice0, List.length_take, sortJs_length, List.length_map]
    have hle : sliceEnd db.length topK ≤ db.length := by
      rw [sliceEnd]
      split <;> omega
    exact min_eq_left hle

theorem chat_nonpositive_topK_witness :
    ([Rec.mk "r1" ['t'] ['s'] [1]] ≠ ([] : List Rec)) ∧
    trim ['q'] ≠ [] ∧
    ((0 : ℤ) ≤ 0) ∧
    ((fun _ : JStr => (.ok [1] : Except String (List ℚ))) ['q'] = .ok [1]) ∧
    ((fun _ : List Scored => fun _ : JStr => (.ok "A" : Except String String))
      (search (fun x => x) [1] [Rec.mk "r1" ['t'] ['s'] [1]] 0) ['q'] = .ok "A") ∧
    (chatHandler (fun x => x) (fun _ => .ok [1]) (fun _ _ => .ok "A")
        [Rec.mk "r1" ['t'] ['s'] [1]] ['q'] 0
      = .ok "A" ((search (fun x => x) [1] [Rec.mk "r1" ['t'] ['s'] [1]] 0).map toChunkOut) ∧
      (search (fun x => x) [1] [Rec.mk "r1" ['t'] ['s'] [1]] 0).length = sliceEnd 1 0) :=
  ⟨by decide, by decide, by decide, rfl, rfl,
    chat_nonpositive_topK (fun x => x) (fun _ => .ok [1]) (fun _ _ => .ok "A")
      [Rec.mk "r1" ['t'] ['s'] [1]] ['q'] 0 [1] "A"
      (by decide) (by decide) (by decide) rfl rfl⟩
